import Mathlib

/-!
A verification development for the PLS (partial least squares) regression
component of this repository.  The notebook delegates the PLS fitting
procedure to a library, so the fitter itself is modelled from the spec
(iterative deflation, PLS1); the notebook's own cells (random data
generation, the model fits, and the component-sweep loop) are embedded
from the source.
-/

namespace PLSSpec

/-- Sum-of-products inner product on finitely indexed real vectors. -/
def dot {m : Type*} [Fintype m] (u v : m → ℝ) : ℝ := ∑ i, u i * v i

/-- Squared Euclidean norm. -/
def norm2 {m : Type*} [Fintype m] (v : m → ℝ) : ℝ := dot v v

/-- Modelled from the spec: the "(normalized)" covariance direction of §4.1 step 1.
Scaling a vector to unit Euclidean norm; the zero vector (no remaining covariance
to extract) stays zero, giving the spec's zero-contribution fallback. -/
noncomputable def normalize {m : Type*} [Fintype m] (v : m → ℝ) : m → ℝ :=
  (Real.sqrt (norm2 v))⁻¹ • v

variable {n p : ℕ}

/-- Per-column mean of a feature matrix. -/
noncomputable def colMean (X : Matrix (Fin n) (Fin p) ℝ) : Fin p → ℝ :=
  fun j => (∑ i, X i j) / n

/-- Mean of a target vector. -/
noncomputable def vecMean (y : Fin n → ℝ) : ℝ := (∑ i, y i) / n

/-- Modelled from the spec (§3): the internally centered copy of X
(mean subtracted per column). -/
noncomputable def centerX (X : Matrix (Fin n) (Fin p) ℝ) : Matrix (Fin n) (Fin p) ℝ :=
  fun i j => X i j - colMean X j

/-- Modelled from the spec (§3): the centered copy of y. -/
noncomputable def centerY (y : Fin n → ℝ) : Fin n → ℝ :=
  fun i => y i - vecMean y

/-- Modelled from the spec (§4.1 step 1): the weight vector, the normalized
covariance direction between the residual feature matrix and residual target. -/
noncomputable def stepW (A : Matrix (Fin n) (Fin p) ℝ) (r : Fin n → ℝ) : Fin p → ℝ :=
  normalize (A.transpose.mulVec r)

/-- Modelled from the spec (§4.1 step 2): the score vector, the residual feature
matrix projected onto the weight vector. -/
noncomputable def stepT (A : Matrix (Fin n) (Fin p) ℝ) (r : Fin n → ℝ) : Fin n → ℝ :=
  A.mulVec (stepW A r)

/-- Modelled from the spec (§4.1 step 3): the feature loading vector, the
least-squares regression of the residual feature matrix onto the score vector
(zero when the score vector is zero, the zero-contribution fallback). -/
noncomputable def stepP (A : Matrix (Fin n) (Fin p) ℝ) (r : Fin n → ℝ) : Fin p → ℝ :=
  (norm2 (stepT A r))⁻¹ • (A.transpose.mulVec (stepT A r))

/-- Modelled from the spec (§4.1 step 4): the target loading scalar, the
least-squares regression of the residual target onto the score vector. -/
noncomputable def stepQ (A : Matrix (Fin n) (Fin p) ℝ) (r : Fin n → ℝ) : ℝ :=
  dot r (stepT A r) / norm2 (stepT A r)

/-- Modelled from the spec (§4.1 step 5): deflation, subtracting the rank-one
reconstruction from the residual matrix and the explained part from the target. -/
noncomputable def plsStep (A : Matrix (Fin n) (Fin p) ℝ) (r : Fin n → ℝ) :
    Matrix (Fin n) (Fin p) ℝ × (Fin n → ℝ) :=
  (fun i a => A i a - stepT A r i * stepP A r a,
   fun i => r i - stepQ A r * stepT A r i)

/-- Modelled from the spec (§4.1): the iterative deflation chain, starting from
the centered data; `chain X y j` is the pair of residuals after j components. -/
noncomputable def chain (X : Matrix (Fin n) (Fin p) ℝ) (y : Fin n → ℝ) :
    ℕ → Matrix (Fin n) (Fin p) ℝ × (Fin n → ℝ)
  | 0 => (centerX X, centerY y)
  | j + 1 => plsStep (chain X y j).1 (chain X y j).2

/-- Residual feature matrix before extracting component j (0-based). -/
noncomputable def Amat (X : Matrix (Fin n) (Fin p) ℝ) (y : Fin n → ℝ) (j : ℕ) :
    Matrix (Fin n) (Fin p) ℝ := (chain X y j).1

/-- Residual target before extracting component j (0-based). -/
noncomputable def rvec (X : Matrix (Fin n) (Fin p) ℝ) (y : Fin n → ℝ) (j : ℕ) :
    Fin n → ℝ := (chain X y j).2

/-- Weight vector of component j. -/
noncomputable def wvec (X : Matrix (Fin n) (Fin p) ℝ) (y : Fin n → ℝ) (j : ℕ) :
    Fin p → ℝ := stepW (Amat X y j) (rvec X y j)

/-- Score vector of component j. -/
noncomputable def tvec (X : Matrix (Fin n) (Fin p) ℝ) (y : Fin n → ℝ) (j : ℕ) :
    Fin n → ℝ := stepT (Amat X y j) (rvec X y j)

/-- Feature loading vector of component j. -/
noncomputable def pload (X : Matrix (Fin n) (Fin p) ℝ) (y : Fin n → ℝ) (j : ℕ) :
    Fin p → ℝ := stepP (Amat X y j) (rvec X y j)

/-- Target loading scalar of component j. -/
noncomputable def qsc (X : Matrix (Fin n) (Fin p) ℝ) (y : Fin n → ℝ) (j : ℕ) : ℝ :=
  stepQ (Amat X y j) (rvec X y j)

/-- Modelled from the spec (§4.1 step 6): the deflation chain applied to one new
(already centered) feature row; used to collapse the component chain into a
single linear map. -/
noncomputable def xres (X : Matrix (Fin n) (Fin p) ℝ) (y : Fin n → ℝ)
    (x : Fin p → ℝ) : ℕ → Fin p → ℝ
  | 0 => x
  | j + 1 => xres X y x j - dot (wvec X y j) (xres X y x j) • pload X y j

/-- The prediction contribution of the first k components, sequentially applied
to one new (already centered) feature row. -/
noncomputable def seqSum (X : Matrix (Fin n) (Fin p) ℝ) (y : Fin n → ℝ)
    (x : Fin p → ℝ) : ℕ → ℝ
  | 0 => 0
  | j + 1 => seqSum X y x j + qsc X y j * dot (wvec X y j) (xres X y x j)

/-- Modelled from the spec (§3): a Fitted Model holds, per component, a weight
vector, a score vector, a feature loading vector and a target loading scalar,
plus the collapsed regression coefficient vector and intercept. -/
structure Model (n p k : ℕ) where
  weight : Fin k → Fin p → ℝ
  scores : Fin k → Fin n → ℝ
  loading : Fin k → Fin p → ℝ
  targetLoading : Fin k → ℝ
  coef : Fin p → ℝ
  intercept : ℝ

/-- Modelled from the spec (§4.1 step 6): the collapsed coefficient vector,
defined through its defining property — the linear map that sequentially
applies all k components — read off on the standard basis vectors. -/
noncomputable def coefVec (X : Matrix (Fin n) (Fin p) ℝ) (y : Fin n → ℝ) (k : ℕ) :
    Fin p → ℝ :=
  fun j => seqSum X y (fun a => if j = a then 1 else 0) k

/-- Modelled from the spec (§4.1): fit X y k runs k deflation iterations on the
centered data and collapses them into a coefficient vector and intercept, the
intercept restoring the feature means' and target mean's contribution. -/
noncomputable def fit (X : Matrix (Fin n) (Fin p) ℝ) (y : Fin n → ℝ) (k : ℕ) :
    Model n p k where
  weight := fun c => wvec X y c
  scores := fun c => tvec X y c
  loading := fun c => pload X y c
  targetLoading := fun c => qsc X y c
  coef := coefVec X y k
  intercept := vecMean y - dot (coefVec X y k) (colMean X)

/-- Modelled from the spec (§4.2): predict, X_new · coefficients + intercept
for a single new feature row. -/
noncomputable def predict {k : ℕ} (m : Model n p k) (x : Fin p → ℝ) : ℝ :=
  dot m.coef x + m.intercept

/-- Sum of squared residuals of a model's predictions against y. -/
noncomputable def rss {k : ℕ} (m : Model n p k) (X : Matrix (Fin n) (Fin p) ℝ)
    (y : Fin n → ℝ) : ℝ :=
  ∑ i, (y i - predict m (fun j => X i j)) ^ 2

/-- Total sum of squares of y about its mean. -/
noncomputable def tss (y : Fin n → ℝ) : ℝ :=
  ∑ i, (y i - vecMean y) ^ 2

/-- Modelled from the spec (§4.4): score returns the coefficient of
determination 1 - rss/tss; on a target of zero total variance it returns the
documented sentinel none (the distinguished divide-by-zero error) instead. -/
noncomputable def score {k : ℕ} (m : Model n p k) (X : Matrix (Fin n) (Fin p) ℝ)
    (y : Fin n → ℝ) : Option ℝ :=
  if tss y = 0 then none else some (1 - rss m X y / tss y)

/-- Modelled from the spec (§1, §8): the ordinary-least-squares baseline with
intercept (a black-box collaborator in the spec), realized as the
normal-equations solution on the centered data. -/
noncomputable def olsCoef (X : Matrix (Fin n) (Fin p) ℝ) (y : Fin n → ℝ) :
    Fin p → ℝ :=
  (((centerX X).transpose * centerX X)⁻¹).mulVec
    ((centerX X).transpose.mulVec (centerY y))

/-- Prediction of the ordinary-least-squares baseline on one feature row. -/
noncomputable def olsPredict (X : Matrix (Fin n) (Fin p) ℝ) (y : Fin n → ℝ)
    (x : Fin p → ℝ) : ℝ :=
  dot (olsCoef X y) x + (vecMean y - dot (olsCoef X y) (colMean X))

/-- The column space of a matrix, as the range of its vector-multiplication map. -/
def colSpace (M : Matrix (Fin n) (Fin p) ℝ) : Submodule ℝ (Fin n → ℝ) :=
  LinearMap.range (Matrix.mulVecLin M)

/-- Modelled from the spec (§7): the error taxonomy of the PLS component. -/
inductive PLSError
  | invalidArgument
  | dimensionMismatch
  | degenerateInput
deriving DecidableEq

/-- Column count of a list-of-rows matrix: the length of its first row. -/
def colCount (X : List (List ℝ)) : ℕ :=
  match X with
  | [] => 0
  | r :: _ => r.length

/-- A list-of-rows matrix as a function matrix (absent entries read 0). -/
def toMatrix (X : List (List ℝ)) : Matrix (Fin X.length) (Fin (colCount X)) ℝ :=
  fun i j => (X.get i).getD j 0

/-- A list as a vector of given length (absent entries read 0). -/
def toVec (y : List ℝ) (len : ℕ) : Fin len → ℝ :=
  fun i => y.getD i 0

/-- A fitted model of unspecified dimensions, as handed back by the checked API. -/
structure DynModel where
  rows : ℕ
  cols : ℕ
  comps : ℕ
  model : Model rows cols comps

/-- Modelled from the spec (§4.1): the checked fit entry point over caller-shaped
data; fails with InvalidArgument when the row count of X differs from the length
of y or k lies outside [1, min(n, p)], and otherwise fits. -/
noncomputable def fitE (X : List (List ℝ)) (y : List ℝ) (k : ℕ) :
    Except PLSError DynModel :=
  if X.length ≠ y.length ∨ k < 1 ∨ min X.length (colCount X) < k then
    .error .invalidArgument
  else
    .ok ⟨X.length, colCount X, k, fit (toMatrix X) (toVec y X.length) k⟩

/-- The R-squared value the notebook prints for a PLS fit with k components on
list-shaped data (training data scored on itself). -/
noncomputable def printedR2 (X : List (List ℝ)) (y : List ℝ) (k : ℕ) : Option ℝ :=
  score (fit (toMatrix X) (toVec y X.length) k) (toMatrix X) (toVec y X.length)

/-- The notebook's global environment: the variables n, p, X, y bound by cell 2. -/
structure Env where
  n : ℕ
  p : ℕ
  X : List (List ℝ)
  y : List ℝ

/-- Embedding of the notebook's component-sweep cell: for n in range(1, 11), the
loop variable n rebinds the global n, a PLS model with n components is fitted on
X, y and its R-squared recorded. Returns the final environment and the outputs. -/
noncomputable def sweepCell (e : Env) : Env × List (Option ℝ) :=
  (List.range' 1 10).foldl
    (fun acc i => ({ acc.1 with n := i }, acc.2 ++ [printedR2 acc.1.X acc.1.y i]))
    (e, [])

/-- The notebook's observation count (cell 2). -/
@[reducible] def nObs : ℕ := 1000

/-- The notebook's feature count (cell 2). -/
@[reducible] def nFeat : ℕ := 10

/-- Embedding of cell 2's X = np.random.normal(size=n*p).reshape((n, p)): the
stream s models the successive draws of the unseeded random generator, consumed
in row-major order. -/
def genX (s : ℕ → ℝ) : Matrix (Fin nObs) (Fin nFeat) ℝ :=
  fun i j => s (i.val * nFeat + j.val)

/-- Embedding of cell 2's y = X[:, 0] + 2 * X[:, 1] + np.random.normal(size=n) + 5;
the n noise draws follow the n * p draws of X in the stream. -/
def genY (s : ℕ → ℝ) : Fin nObs → ℝ :=
  fun i => genX s i 0 + 2 * genX s i 1 + s (nObs * nFeat + i.val) + 5

/-- Cell 2's X as the list-of-rows the checked API consumes. -/
def genXList (s : ℕ → ℝ) : List (List ℝ) :=
  List.ofFn fun i : Fin nObs => List.ofFn fun j : Fin nFeat => genX s i j

/-- Cell 2's y as a list. -/
def genYList (s : ℕ → ℝ) : List ℝ :=
  List.ofFn fun i : Fin nObs => genY s i

/-- Embedding of cell 3's PLS part: fit with 3 components on the generated data
and score on the training data — the printed R-squared as a function of the
random stream. -/
noncomputable def notebookR2 (s : ℕ → ℝ) : Option ℝ :=
  score (fit (genX s) (genY s) 3) (genX s) (genY s)

/-- The component counts of every PLSRegression the notebook constructs:
n_components = 3 in cell 3 and n_components = 1, ..., 10 in the sweep cell. -/
def notebookComponentCounts : List ℕ :=
  3 :: List.range' 1 10

/-! ### Basic algebra of the inner product -/

theorem dot_smul_right {m : Type*} [Fintype m] (c : ℝ) (u v : m → ℝ) :
    dot u (c • v) = c * dot u v := by
  simp only [dot, Pi.smul_apply, smul_eq_mul, Finset.mul_sum]
  exact Finset.sum_congr rfl fun i _ => by ring

theorem dot_smul_left {m : Type*} [Fintype m] (c : ℝ) (u v : m → ℝ) :
    dot (c • u) v = c * dot u v := by
  simp only [dot, Pi.smul_apply, smul_eq_mul, Finset.mul_sum]
  exact Finset.sum_congr rfl fun i _ => by ring

theorem dot_sub_right {m : Type*} [Fintype m] (u v w : m → ℝ) :
    dot u (v - w) = dot u v - dot u w := by
  simp only [dot, Pi.sub_apply, ← Finset.sum_sub_distrib]
  exact Finset.sum_congr rfl fun i _ => by ring

theorem dot_sub_left {m : Type*} [Fintype m] (u v w : m → ℝ) :
    dot (u - v) w = dot u w - dot v w := by
  simp only [dot, Pi.sub_apply, ← Finset.sum_sub_distrib]
  exact Finset.sum_congr rfl fun i _ => by ring

theorem dot_add_right {m : Type*} [Fintype m] (u v w : m → ℝ) :
    dot u (v + w) = dot u v + dot u w := by
  simp only [dot, Pi.add_apply, ← Finset.sum_add_distrib]
  exact Finset.sum_congr rfl fun i _ => by ring

theorem dot_zero_right {m : Type*} [Fintype m] (u : m → ℝ) : dot u 0 = 0 := by
  simp [dot]

theorem dot_zero_left {m : Type*} [Fintype m] (u : m → ℝ) : dot (0 : m → ℝ) u = 0 := by
  simp [dot]

theorem dot_comm {m : Type*} [Fintype m] (u v : m → ℝ) : dot u v = dot v u := by
  simp only [dot]
  exact Finset.sum_congr rfl fun i _ => by ring

theorem dot_mulVec {n p : ℕ} (M : Matrix (Fin n) (Fin p) ℝ) (u : Fin p → ℝ)
    (v : Fin n → ℝ) : dot (M.mulVec u) v = dot u (M.transpose.mulVec v) := by
  simp only [dot, Matrix.mulVec, Matrix.dotProduct, Matrix.transpose_apply,
    Finset.sum_mul, Finset.mul_sum]
  rw [Finset.sum_comm]
  exact Finset.sum_congr rfl fun j _ => Finset.sum_congr rfl fun i _ => by ring

theorem norm2_nonneg {m : Type*} [Fintype m] (v : m → ℝ) : 0 ≤ norm2 v :=
  Finset.sum_nonneg fun i _ => mul_self_nonneg (v i)

theorem norm2_eq_zero_iff {m : Type*} [Fintype m] (v : m → ℝ) :
    norm2 v = 0 ↔ v = 0 := by
  constructor
  · intro h
    funext i
    have h' := (Finset.sum_eq_zero_iff_of_nonneg
      (fun i _ => mul_self_nonneg (v i))).mp h i (Finset.mem_univ i)
    exact mul_self_eq_zero.mp h'
  · intro h
    subst h
    simp [norm2, dot]

theorem norm2_pos_of_ne {m : Type*} [Fintype m] {v : m → ℝ} (h : v ≠ 0) :
    0 < norm2 v :=
  lt_of_le_of_ne (norm2_nonneg v) fun h0 => h ((norm2_eq_zero_iff v).mp h0.symm)

theorem normalize_zero {m : Type*} [Fintype m] :
    normalize (0 : m → ℝ) = 0 := by
  simp [normalize]

theorem normalize_eq_zero_iff {m : Type*} [Fintype m] (v : m → ℝ) :
    normalize v = 0 ↔ v = 0 := by
  constructor
  · intro h
    by_contra hv
    have h2 : 0 < norm2 v := norm2_pos_of_ne hv
    have hs : 0 < Real.sqrt (norm2 v) := Real.sqrt_pos.mpr h2
    have : (Real.sqrt (norm2 v))⁻¹ • v = 0 := h
    have hscalar : (Real.sqrt (norm2 v))⁻¹ ≠ 0 := inv_ne_zero (ne_of_gt hs)
    exact hv (by
      funext i
      have := congrFun this i
      simp only [Pi.smul_apply, smul_eq_mul, Pi.zero_apply] at this
      exact (mul_eq_zero.mp this).resolve_left hscalar)
  · intro h
    subst h
    exact normalize_zero

/-! ### Unfolding the deflation chain -/

theorem Amat_zero {n p : ℕ} (X : Matrix (Fin n) (Fin p) ℝ) (y : Fin n → ℝ) :
    Amat X y 0 = centerX X := rfl

theorem rvec_zero {n p : ℕ} (X : Matrix (Fin n) (Fin p) ℝ) (y : Fin n → ℝ) :
    rvec X y 0 = centerY y := rfl

theorem Amat_succ {n p : ℕ} (X : Matrix (Fin n) (Fin p) ℝ) (y : Fin n → ℝ) (j : ℕ) :
    Amat X y (j + 1) =
      fun i a => Amat X y j i a - tvec X y j i * pload X y j a := rfl

theorem rvec_succ {n p : ℕ} (X : Matrix (Fin n) (Fin p) ℝ) (y : Fin n → ℝ) (j : ℕ) :
    rvec X y (j + 1) = rvec X y j - qsc X y j • tvec X y j := rfl

theorem wvec_def {n p : ℕ} (X : Matrix (Fin n) (Fin p) ℝ) (y : Fin n → ℝ) (j : ℕ) :
    wvec X y j = normalize ((Amat X y j).transpose.mulVec (rvec X y j)) := rfl

theorem tvec_def {n p : ℕ} (X : Matrix (Fin n) (Fin p) ℝ) (y : Fin n → ℝ) (j : ℕ) :
    tvec X y j = (Amat X y j).mulVec (wvec X y j) := rfl

theorem pload_def {n p : ℕ} (X : Matrix (Fin n) (Fin p) ℝ) (y : Fin n → ℝ) (j : ℕ) :
    pload X y j =
      (norm2 (tvec X y j))⁻¹ • ((Amat X y j).transpose.mulVec (tvec X y j)) := rfl

theorem qsc_def {n p : ℕ} (X : Matrix (Fin n) (Fin p) ℝ) (y : Fin n → ℝ) (j : ℕ) :
    qsc X y j = dot (rvec X y j) (tvec X y j) / norm2 (tvec X y j) := rfl

/-- Deflating and then transposing: the rank-one correction becomes a
correction along the feature loading. -/
theorem Amat_succ_transpose_mulVec {n p : ℕ} (X : Matrix (Fin n) (Fin p) ℝ)
    (y : Fin n → ℝ) (j : ℕ) (v : Fin n → ℝ) :
    (Amat X y (j + 1)).transpose.mulVec v =
      (Amat X y j).transpose.mulVec v - dot (tvec X y j) v • pload X y j := by
  funext a
  simp only [Amat_succ, Matrix.mulVec, Matrix.dotProduct, Matrix.transpose_apply,
    Pi.sub_apply, Pi.smul_apply, smul_eq_mul, dot, Finset.sum_mul, Finset.mul_sum,
    sub_mul, ← Finset.sum_sub_distrib]
  exact Finset.sum_congr rfl fun i _ => by ring

/-- Deflating and then applying to a feature vector: the correction runs along
the score vector. -/
theorem Amat_succ_mulVec {n p : ℕ} (X : Matrix (Fin n) (Fin p) ℝ)
    (y : Fin n → ℝ) (j : ℕ) (w : Fin p → ℝ) :
    (Amat X y (j + 1)).mulVec w =
      (Amat X y j).mulVec w - dot (pload X y j) w • tvec X y j := by
  funext i
  simp only [Amat_succ, Matrix.mulVec, Matrix.dotProduct, Pi.sub_apply,
    Pi.smul_apply, smul_eq_mul, dot, Finset.sum_mul, Finset.mul_sum, sub_mul,
    ← Finset.sum_sub_distrib]
  exact Finset.sum_congr rfl fun a _ => by ring

/-! ### Orthogonality structure of the extracted components -/

/-- The score vector has positive covariance with the residual target whenever
the weight vector is nonzero. -/
theorem dot_tvec_rvec_pos {n p : ℕ} (X : Matrix (Fin n) (Fin p) ℝ)
    (y : Fin n → ℝ) (j : ℕ) (h : wvec X y j ≠ 0) :
    0 < dot (tvec X y j) (rvec X y j) := by
  set v := (Amat X y j).transpose.mulVec (rvec X y j) with hv
  have hvne : v ≠ 0 := by
    intro h0
    exact h (by rw [wvec_def, ← hv, h0, normalize_zero])
  have hs : 0 < (Real.sqrt (norm2 v))⁻¹ :=
    inv_pos.mpr (Real.sqrt_pos.mpr (norm2_pos_of_ne hvne))
  have ht : tvec X y j = (Real.sqrt (norm2 v))⁻¹ • (Amat X y j).mulVec v := by
    rw [tvec_def, wvec_def, ← hv, normalize, Matrix.mulVec_smul]
  rw [ht, dot_smul_left, dot_mulVec, ← hv]
  exact mul_pos hs (norm2_pos_of_ne hvne)

/-- The score vector is nonzero whenever the weight vector is. -/
theorem tvec_ne_zero {n p : ℕ} (X : Matrix (Fin n) (Fin p) ℝ)
    (y : Fin n → ℝ) (j : ℕ) (h : wvec X y j ≠ 0) : tvec X y j ≠ 0 := by
  intro h0
  have := dot_tvec_rvec_pos X y j h
  rw [h0, dot_zero_left] at this
  exact lt_irrefl 0 this

/-- Deflation makes the new residual target orthogonal to the score vector. -/
theorem dot_tvec_rvec_succ {n p : ℕ} (X : Matrix (Fin n) (Fin p) ℝ)
    (y : Fin n → ℝ) (j : ℕ) : dot (tvec X y j) (rvec X y (j + 1)) = 0 := by
  rw [rvec_succ, dot_sub_right, dot_smul_right]
  rcases eq_or_ne (norm2 (tvec X y j)) 0 with h0 | h0
  · have ht : tvec X y j = 0 := (norm2_eq_zero_iff _).mp h0
    rw [ht]
    simp [dot_zero_left]
  · have hident : dot (tvec X y j) (tvec X y j) = norm2 (tvec X y j) := rfl
    rw [qsc_def, hident, dot_comm (rvec X y j) (tvec X y j),
      div_mul_cancel₀ _ h0, sub_self]

/-- Deflation makes the new residual matrix orthogonal to the score vector. -/
theorem Amat_succ_transpose_tvec {n p : ℕ} (X : Matrix (Fin n) (Fin p) ℝ)
    (y : Fin n → ℝ) (j : ℕ) :
    (Amat X y (j + 1)).transpose.mulVec (tvec X y j) = 0 := by
  rw [Amat_succ_transpose_mulVec, pload_def]
  rcases eq_or_ne (norm2 (tvec X y j)) 0 with h0 | h0
  · have ht : tvec X y j = 0 := (norm2_eq_zero_iff _).mp h0
    rw [ht]
    simp
  · have : dot (tvec X y j) (tvec X y j) = norm2 (tvec X y j) := rfl
    rw [this, smul_smul, mul_inv_cancel₀ h0, one_smul, sub_self]

/-- The residual matrix after j components is orthogonal to every earlier
score vector. -/
theorem Amat_transpose_tvec_eq_zero {n p : ℕ} (X : Matrix (Fin n) (Fin p) ℝ)
    (y : Fin n → ℝ) :
    ∀ j i, i < j → (Amat X y j).transpose.mulVec (tvec X y i) = 0 := by
  intro j
  induction j with
  | zero => intro i hi; exact absurd hi (Nat.not_lt_zero i)
  | succ j ih =>
    intro i hi
    rcases Nat.lt_succ_iff_lt_or_eq.mp hi with h | h
    · rw [Amat_succ_transpose_mulVec]
      have h1 := ih i h
      have h2 : dot (tvec X y j) (tvec X y i) = 0 := by
        rw [tvec_def X y j, dot_mulVec, h1, dot_zero_right]
      rw [h1, h2, zero_smul, sub_zero]
    · subst h
      exact Amat_succ_transpose_tvec X y i

/-- Score vectors of distinct components are orthogonal. -/
theorem tvec_orth {n p : ℕ} (X : Matrix (Fin n) (Fin p) ℝ) (y : Fin n → ℝ)
    {i j : ℕ} (h : i < j) : dot (tvec X y j) (tvec X y i) = 0 := by
  rw [tvec_def X y j, dot_mulVec, Amat_transpose_tvec_eq_zero X y j i h,
    dot_zero_right]

/-- The residual target after j components is orthogonal to every earlier
score vector. -/
theorem tvec_dot_rvec_eq_zero {n p : ℕ} (X : Matrix (Fin n) (Fin p) ℝ)
    (y : Fin n → ℝ) :
    ∀ j i, i < j → dot (tvec X y i) (rvec X y j) = 0 := by
  intro j
  induction j with
  | zero => intro i hi; exact absurd hi (Nat.not_lt_zero i)
  | succ j ih =>
    intro i hi
    rcases Nat.lt_succ_iff_lt_or_eq.mp hi with h | h
    · rw [rvec_succ, dot_sub_right, dot_smul_right, ih i h,
        dot_comm (tvec X y i) (tvec X y j), tvec_orth X y h, mul_zero, sub_zero]
    · subst h
      exact dot_tvec_rvec_succ X y i

/-- A vector orthogonal to all earlier score vectors sees the residual matrix
as the original centered matrix. -/
theorem Amat_transpose_mulVec_eq {n p : ℕ} (X : Matrix (Fin n) (Fin p) ℝ)
    (y : Fin n → ℝ) :
    ∀ j (v : Fin n → ℝ), (∀ i, i < j → dot (tvec X y i) v = 0) →
      (Amat X y j).transpose.mulVec v = (centerX X).transpose.mulVec v := by
  intro j
  induction j with
  | zero => intro v _; rfl
  | succ j ih =>
    intro v hv
    rw [Amat_succ_transpose_mulVec, hv j (Nat.lt_succ_self j), zero_smul,
      sub_zero]
    exact ih v fun i hi => hv i (Nat.lt_succ_of_lt hi)

/-- The weight direction extracted at step j is, up to normalization, the
covariance of the original centered matrix with the current residual target. -/
theorem Amat_transpose_rvec {n p : ℕ} (X : Matrix (Fin n) (Fin p) ℝ)
    (y : Fin n → ℝ) (j : ℕ) :
    (Amat X y j).transpose.mulVec (rvec X y j) =
      (centerX X).transpose.mulVec (rvec X y j) :=
  Amat_transpose_mulVec_eq X y j (rvec X y j) fun i hi =>
    tvec_dot_rvec_eq_zero X y j i hi

/-- The weight vector vanishes exactly when no covariance with the original
centered features remains. -/
theorem wvec_eq_zero_iff {n p : ℕ} (X : Matrix (Fin n) (Fin p) ℝ)
    (y : Fin n → ℝ) (j : ℕ) :
    wvec X y j = 0 ↔ (centerX X).transpose.mulVec (rvec X y j) = 0 := by
  rw [wvec_def, normalize_eq_zero_iff, Amat_transpose_rvec]

/-! ### Saturation: a vanishing weight freezes the chain -/

theorem tvec_of_wvec_zero {n p : ℕ} (X : Matrix (Fin n) (Fin p) ℝ)
    (y : Fin n → ℝ) (j : ℕ) (h : wvec X y j = 0) : tvec X y j = 0 := by
  rw [tvec_def, h, Matrix.mulVec_zero]

theorem pload_of_wvec_zero {n p : ℕ} (X : Matrix (Fin n) (Fin p) ℝ)
    (y : Fin n → ℝ) (j : ℕ) (h : wvec X y j = 0) : pload X y j = 0 := by
  rw [pload_def, tvec_of_wvec_zero X y j h, Matrix.mulVec_zero, smul_zero]

theorem qsc_of_wvec_zero {n p : ℕ} (X : Matrix (Fin n) (Fin p) ℝ)
    (y : Fin n → ℝ) (j : ℕ) (h : wvec X y j = 0) : qsc X y j = 0 := by
  rw [qsc_def, tvec_of_wvec_zero X y j h, dot_zero_right, zero_div]

/-- A vanishing weight leaves the residuals unchanged. -/
theorem chain_succ_of_wvec_zero {n p : ℕ} (X : Matrix (Fin n) (Fin p) ℝ)
    (y : Fin n → ℝ) (j : ℕ) (h : wvec X y j = 0) :
    chain X y (j + 1) = chain X y j := by
  have ht : tvec X y j = 0 := tvec_of_wvec_zero X y j h
  have hA : Amat X y (j + 1) = Amat X y j := by
    rw [Amat_succ]
    funext i a
    rw [show tvec X y j i = 0 from congrFun ht i, zero_mul, sub_zero]
  have hr : rvec X y (j + 1) = rvec X y j := by
    rw [rvec_succ, ht, smul_zero, sub_zero]
  exact Prod.ext hA hr

/-- Once the weight vanishes the whole chain is frozen from that point on. -/
theorem chain_frozen {n p : ℕ} (X : Matrix (Fin n) (Fin p) ℝ) (y : Fin n → ℝ)
    {j : ℕ} (h : wvec X y j = 0) :
    ∀ m, j ≤ m → chain X y m = chain X y j := by
  intro m hm
  induction m, hm using Nat.le_induction with
  | base => rfl
  | succ m hm ih =>
    have hw : wvec X y m = 0 := by
      show stepW (chain X y m).1 (chain X y m).2 = 0
      rw [ih]
      exact h
    rw [show chain X y (m + 1) = plsStep (chain X y m).1 (chain X y m).2 from rfl,
      show plsStep (chain X y m).1 (chain X y m).2 = chain X y (m + 1) from rfl,
      chain_succ_of_wvec_zero X y m hw, ih]

/-! ### Sequential application reproduces the training scores -/

theorem dot_wvec_row {n p : ℕ} (X : Matrix (Fin n) (Fin p) ℝ) (y : Fin n → ℝ)
    (i : Fin n) (j : ℕ) :
    dot (wvec X y j) (fun a => Amat X y j i a) = tvec X y j i := by
  rw [tvec_def]
  show _ = (Amat X y j).mulVec (wvec X y j) i
  simp only [Matrix.mulVec, Matrix.dotProduct, dot]
  exact Finset.sum_congr rfl fun a _ => by ring

theorem xres_train {n p : ℕ} (X : Matrix (Fin n) (Fin p) ℝ) (y : Fin n → ℝ)
    (i : Fin n) : ∀ j, xres X y (fun a => centerX X i a) j =
      fun a => Amat X y j i a := by
  intro j
  induction j with
  | zero => rfl
  | succ j ih =>
    show xres X y (fun a => centerX X i a) j -
        dot (wvec X y j) (xres X y (fun a => centerX X i a) j) • pload X y j = _
    rw [ih, dot_wvec_row, Amat_succ]
    funext a
    simp only [Pi.sub_apply, Pi.smul_apply, smul_eq_mul]

theorem seqSum_train {n p : ℕ} (X : Matrix (Fin n) (Fin p) ℝ) (y : Fin n → ℝ)
    (i : Fin n) (k : ℕ) :
    seqSum X y (fun a => centerX X i a) k =
      ∑ c ∈ Finset.range k, qsc X y c * tvec X y c i := by
  induction k with
  | zero => rfl
  | succ k ih =>
    show seqSum X y (fun a => centerX X i a) k + qsc X y k *
        dot (wvec X y k) (xres X y (fun a => centerX X i a) k) = _
    rw [ih, xres_train, dot_wvec_row, Finset.sum_range_succ]

theorem rvec_eq_sub_sum {n p : ℕ} (X : Matrix (Fin n) (Fin p) ℝ)
    (y : Fin n → ℝ) (k : ℕ) :
    rvec X y k = fun i =>
      centerY y i - ∑ c ∈ Finset.range k, qsc X y c * tvec X y c i := by
  induction k with
  | zero => simp [rvec_zero]
  | succ k ih =>
    rw [rvec_succ, ih]
    funext i
    simp only [Pi.sub_apply, Pi.smul_apply, smul_eq_mul, Finset.sum_range_succ]
    ring

/-! ### Linearity of the collapsed map -/

theorem xres_linear {n p : ℕ} (X : Matrix (Fin n) (Fin p) ℝ) (y : Fin n → ℝ)
    (c : ℝ) (u v : Fin p → ℝ) :
    ∀ j, xres X y (c • u + v) j = c • xres X y u j + xres X y v j := by
  intro j
  induction j with
  | zero => rfl
  | succ j ih =>
    show xres X y (c • u + v) j -
        dot (wvec X y j) (xres X y (c • u + v) j) • pload X y j = _
    rw [ih, dot_add_right, dot_smul_right]
    show _ = c • (xres X y u j - dot (wvec X y j) (xres X y u j) • pload X y j) +
      (xres X y v j - dot (wvec X y j) (xres X y v j) • pload X y j)
    funext a
    simp only [Pi.add_apply, Pi.sub_apply, Pi.smul_apply, smul_eq_mul]
    ring

theorem seqSum_linear {n p : ℕ} (X : Matrix (Fin n) (Fin p) ℝ) (y : Fin n → ℝ)
    (c : ℝ) (u v : Fin p → ℝ) :
    ∀ k, seqSum X y (c • u + v) k = c * seqSum X y u k + seqSum X y v k := by
  intro k
  induction k with
  | zero => show (0 : ℝ) = c * 0 + 0; ring
  | succ k ih =>
    show seqSum X y (c • u + v) k + qsc X y k *
        dot (wvec X y k) (xres X y (c • u + v) k) = _
    rw [ih, xres_linear, dot_add_right, dot_smul_right]
    show _ = c * (seqSum X y u k + qsc X y k * dot (wvec X y k) (xres X y u k)) +
      (seqSum X y v k + qsc X y k * dot (wvec X y k) (xres X y v k))
    ring

theorem xres_zero_input {n p : ℕ} (X : Matrix (Fin n) (Fin p) ℝ)
    (y : Fin n → ℝ) : ∀ j, xres X y 0 j = 0 := by
  intro j
  induction j with
  | zero => rfl
  | succ j ih =>
    show xres X y 0 j - dot (wvec X y j) (xres X y 0 j) • pload X y j = 0
    rw [ih, dot_zero_right, zero_smul, sub_zero]

theorem seqSum_zero_input {n p : ℕ} (X : Matrix (Fin n) (Fin p) ℝ)
    (y : Fin n → ℝ) : ∀ k, seqSum X y 0 k = 0 := by
  intro k
  induction k with
  | zero => rfl
  | succ k ih =>
    show seqSum X y 0 k + qsc X y k * dot (wvec X y k) (xres X y 0 k) = 0
    rw [ih, xres_zero_input, dot_zero_right, mul_zero, add_zero]

theorem seqSum_add {n p : ℕ} (X : Matrix (Fin n) (Fin p) ℝ) (y : Fin n → ℝ)
    (u v : Fin p → ℝ) (k : ℕ) :
    seqSum X y (u + v) k = seqSum X y u k + seqSum X y v k := by
  have h := seqSum_linear X y 1 u v k
  rwa [one_smul, one_mul] at h

theorem seqSum_smul {n p : ℕ} (X : Matrix (Fin n) (Fin p) ℝ) (y : Fin n → ℝ)
    (c : ℝ) (u : Fin p → ℝ) (k : ℕ) :
    seqSum X y (c • u) k = c * seqSum X y u k := by
  have h := seqSum_linear X y c u 0 k
  rwa [add_zero, seqSum_zero_input, add_zero] at h

theorem seqSum_finset_sum {n p : ℕ} (X : Matrix (Fin n) (Fin p) ℝ)
    (y : Fin n → ℝ) {ι : Type*} [DecidableEq ι] (s : Finset ι)
    (f : ι → Fin p → ℝ) (k : ℕ) :
    seqSum X y (∑ c ∈ s, f c) k = ∑ c ∈ s, seqSum X y (f c) k := by
  induction s using Finset.induction_on with
  | empty => simp [seqSum_zero_input]
  | @insert a s ha ih =>
    rw [Finset.sum_insert ha, Finset.sum_insert ha, seqSum_add, ih]

/-- The collapsed coefficient vector computes, through the inner product, the
same value as sequentially applying all k components. -/
theorem dot_coefVec {n p : ℕ} (X : Matrix (Fin n) (Fin p) ℝ) (y : Fin n → ℝ)
    (x : Fin p → ℝ) (k : ℕ) : dot (coefVec X y k) x = seqSum X y x k := by
  have hx := pi_eq_sum_univ x
  calc dot (coefVec X y k) x
      = ∑ j, x j * seqSum X y (fun a => if j = a then 1 else 0) k := by
        simp only [dot, coefVec]
        exact Finset.sum_congr rfl fun j _ => by ring
    _ = ∑ j, seqSum X y (x j • fun a => if j = a then (1 : ℝ) else 0) k :=
        Finset.sum_congr rfl fun j _ => (seqSum_smul X y (x j) _ k).symm
    _ = seqSum X y (∑ j, x j • fun a => if j = a then (1 : ℝ) else 0) k :=
        (seqSum_finset_sum X y Finset.univ
          (fun j => x j • fun a => if j = a then (1 : ℝ) else 0) k).symm
    _ = seqSum X y x k := by rw [← hx]

/-! ### Predictions of the fitted model -/

theorem predict_fit {n p : ℕ} (X : Matrix (Fin n) (Fin p) ℝ) (y : Fin n → ℝ)
    (k : ℕ) (xnew : Fin p → ℝ) :
    predict (fit X y k) xnew =
      vecMean y + seqSum X y (xnew - colMean X) k := by
  show dot (coefVec X y k) xnew +
    (vecMean y - dot (coefVec X y k) (colMean X)) = _
  rw [← dot_coefVec X y (xnew - colMean X) k, dot_sub_right]
  ring

theorem predict_fit_train {n p : ℕ} (X : Matrix (Fin n) (Fin p) ℝ)
    (y : Fin n → ℝ) (k : ℕ) (i : Fin n) :
    predict (fit X y k) (fun a => X i a) =
      vecMean y + ∑ c ∈ Finset.range k, qsc X y c * tvec X y c i := by
  rw [predict_fit]
  have hc : (fun a => X i a) - colMean X = fun a => centerX X i a := by
    funext a
    simp [centerX, Pi.sub_apply]
  rw [hc, seqSum_train]

/-- On a training row, the residual of the k-component model is exactly the
k-fold deflated target. -/
theorem residual_train {n p : ℕ} (X : Matrix (Fin n) (Fin p) ℝ)
    (y : Fin n → ℝ) (k : ℕ) (i : Fin n) :
    y i - predict (fit X y k) (fun a => X i a) = rvec X y k i := by
  rw [predict_fit_train, rvec_eq_sub_sum]
  simp only [centerY]
  ring

/-- The training sum of squared residuals of the k-component model is the
squared norm of the k-fold deflated target. -/
theorem rss_fit {n p : ℕ} (X : Matrix (Fin n) (Fin p) ℝ) (y : Fin n → ℝ)
    (k : ℕ) : rss (fit X y k) X y = norm2 (rvec X y k) := by
  unfold rss norm2 dot
  refine Finset.sum_congr rfl fun i _ => ?_
  rw [← residual_train X y k i]
  ring

/-! ### Each component can only decrease the training residual -/

theorem norm2_sub_smul {m : Type*} [Fintype m] (u v : m → ℝ) (c : ℝ) :
    norm2 (u - c • v) = norm2 u - 2 * c * dot u v + c ^ 2 * norm2 v := by
  simp only [norm2, dot, Pi.sub_apply, Pi.smul_apply, smul_eq_mul]
  rw [Finset.mul_sum, Finset.mul_sum, ← Finset.sum_sub_distrib,
    ← Finset.sum_add_distrib]
  exact Finset.sum_congr rfl fun i _ => by ring

theorem norm2_rvec_succ_le {n p : ℕ} (X : Matrix (Fin n) (Fin p) ℝ)
    (y : Fin n → ℝ) (j : ℕ) :
    norm2 (rvec X y (j + 1)) ≤ norm2 (rvec X y j) := by
  rw [rvec_succ, norm2_sub_smul]
  rcases eq_or_ne (norm2 (tvec X y j)) 0 with h0 | h0
  · have ht : tvec X y j = 0 := (norm2_eq_zero_iff _).mp h0
    rw [ht, dot_zero_right, (norm2_eq_zero_iff (0 : Fin n → ℝ)).mpr rfl]
    simp
  · have hq : qsc X y j * norm2 (tvec X y j) = dot (rvec X y j) (tvec X y j) := by
      rw [qsc_def, div_mul_cancel₀ _ h0]
    rw [← hq]
    nlinarith [mul_nonneg (sq_nonneg (qsc X y j)) (norm2_nonneg (tvec X y j))]

theorem norm2_rvec_antitone {n p : ℕ} (X : Matrix (Fin n) (Fin p) ℝ)
    (y : Fin n → ℝ) {k1 k2 : ℕ} (h : k1 ≤ k2) :
    norm2 (rvec X y k2) ≤ norm2 (rvec X y k1) := by
  induction k2, h using Nat.le_induction with
  | base => exact le_refl _
  | succ m hm ih => exact le_trans (norm2_rvec_succ_le X y m) ih

/-! ### The total sum of squares and constant targets -/

theorem tss_eq_zero_iff {n : ℕ} (y : Fin n → ℝ) :
    tss y = 0 ↔ ∀ i j, y i = y j := by
  constructor
  · intro h i j
    have hall : ∀ i ∈ Finset.univ, (y i - vecMean y) ^ 2 = 0 :=
      (Finset.sum_eq_zero_iff_of_nonneg fun i _ =>
        sq_nonneg (y i - vecMean y)).mp h
    have hi : y i = vecMean y :=
      sub_eq_zero.mp (sq_eq_zero_iff.mp (hall i (Finset.mem_univ i)))
    have hj : y j = vecMean y :=
      sub_eq_zero.mp (sq_eq_zero_iff.mp (hall j (Finset.mem_univ j)))
    rw [hi, hj]
  · intro h
    refine Finset.sum_eq_zero fun i _ => ?_
    have hcast : (n : ℝ) ≠ 0 :=
      Nat.cast_ne_zero.mpr (Nat.pos_iff_ne_zero.mp i.pos)
    have hsum : ∑ j, y j = n * y i := by
      rw [Finset.sum_congr rfl fun j _ => h j i, Finset.sum_const,
        Finset.card_univ, Fintype.card_fin, nsmul_eq_mul]
    have hmean : vecMean y = y i := by
      rw [vecMean, hsum, mul_comm, mul_div_assoc, div_self hcast, mul_one]
    rw [hmean, sub_self]
    exact zero_pow two_ne_zero

/-! ### More inner-product sums -/

theorem dot_sum_right {m ι : Type*} [Fintype m] (s : Finset ι) (u : m → ℝ)
    (f : ι → m → ℝ) : dot u (∑ c ∈ s, f c) = ∑ c ∈ s, dot u (f c) := by
  simp only [dot, Finset.sum_apply, Finset.mul_sum]
  exact Finset.sum_comm

/-- The centered matrix applied to the collapsed coefficient vector gives the
fitted component combination on every training row. -/
theorem mulVec_coefVec {n p : ℕ} (X : Matrix (Fin n) (Fin p) ℝ)
    (y : Fin n → ℝ) (k : ℕ) :
    (centerX X).mulVec (coefVec X y k) =
      fun i => ∑ c ∈ Finset.range k, qsc X y c * tvec X y c i := by
  funext i
  have hrow : (centerX X).mulVec (coefVec X y k) i =
      dot (coefVec X y k) (fun a => centerX X i a) := by
    simp only [Matrix.mulVec, Matrix.dotProduct, dot]
    exact Finset.sum_congr rfl fun a _ => by ring
  rw [hrow, dot_coefVec, seqSum_train]

/-- Every column of the centered matrix sums to zero. -/
theorem sum_centerX_col {n p : ℕ} (X : Matrix (Fin n) (Fin p) ℝ) (hn : n ≠ 0)
    (a : Fin p) : ∑ i, centerX X i a = 0 := by
  have hcast : (n : ℝ) ≠ 0 := Nat.cast_ne_zero.mpr hn
  simp only [centerX]
  rw [Finset.sum_sub_distrib, Finset.sum_const, Finset.card_univ,
    Fintype.card_fin, nsmul_eq_mul, colMean, mul_div_cancel₀ _ hcast, sub_self]

/-! ### Termination: after min(n, p) components no covariance remains -/

theorem Amat_mulVec_mem {n p : ℕ} (X : Matrix (Fin n) (Fin p) ℝ)
    (y : Fin n → ℝ) :
    ∀ j (w : Fin p → ℝ), (Amat X y j).mulVec w ∈ colSpace (centerX X) := by
  intro j
  induction j with
  | zero =>
    intro w
    exact LinearMap.mem_range.mpr ⟨w, Matrix.mulVecLin_apply _ _⟩
  | succ j ih =>
    intro w
    rw [Amat_succ_mulVec]
    refine Submodule.sub_mem _ (ih w) (Submodule.smul_mem _ _ ?_)
    rw [tvec_def]
    exact ih (wvec X y j)

theorem tvec_mem {n p : ℕ} (X : Matrix (Fin n) (Fin p) ℝ) (y : Fin n → ℝ)
    (j : ℕ) : tvec X y j ∈ colSpace (centerX X) := by
  rw [tvec_def]
  exact Amat_mulVec_mem X y j (wvec X y j)

/-- Nonzero weights produce linearly independent (orthogonal, nonzero) score
vectors. -/
theorem tvec_linearIndependent {n p : ℕ} (X : Matrix (Fin n) (Fin p) ℝ)
    (y : Fin n → ℝ) (k : ℕ) (hall : ∀ j, j < k → wvec X y j ≠ 0) :
    LinearIndependent ℝ (fun c : Fin k => tvec X y c.val) := by
  rw [Fintype.linearIndependent_iff]
  intro g hg m
  have hdot : dot (tvec X y m.val) (∑ c, g c • tvec X y c.val) = 0 := by
    rw [hg, dot_zero_right]
  rw [dot_sum_right] at hdot
  have hsingle : ∀ c ∈ Finset.univ, c ≠ m →
      dot (tvec X y m.val) (g c • tvec X y c.val) = 0 := by
    intro c _ hcm
    rw [dot_smul_right]
    rcases lt_or_gt_of_ne (fun h : c.val = m.val => hcm (Fin.ext h)) with h | h
    · rw [tvec_orth X y h, mul_zero]
    · rw [dot_comm, tvec_orth X y h, mul_zero]
  rw [Finset.sum_eq_single m hsingle
    (fun hm => absurd (Finset.mem_univ m) hm), dot_smul_right] at hdot
  have hident : dot (tvec X y m.val) (tvec X y m.val) = norm2 (tvec X y m.val) :=
    rfl
  rw [hident] at hdot
  have hpos : 0 < norm2 (tvec X y m.val) :=
    norm2_pos_of_ne (tvec_ne_zero X y m.val (hall m.val m.isLt))
  exact (mul_eq_zero.mp hdot).resolve_right (ne_of_gt hpos)

/-- After min(n, p) deflation steps the residual target has no covariance left
with the centered features: either a weight vanished earlier and the chain
froze, or the score vectors already span the whole column space. -/
theorem terminal_no_covariance {n p : ℕ} (X : Matrix (Fin n) (Fin p) ℝ)
    (y : Fin n → ℝ) :
    (centerX X).transpose.mulVec (rvec X y (min n p)) = 0 := by
  by_cases hex : ∃ j, j < min n p ∧ wvec X y j = 0
  · obtain ⟨j, hj, hw⟩ := hex
    have hc := chain_frozen X y hw (min n p) (le_of_lt hj)
    have hr : rvec X y (min n p) = rvec X y j := congrArg Prod.snd hc
    rw [hr]
    exact (wvec_eq_zero_iff X y j).mp hw
  · push_neg at hex
    rcases Nat.eq_zero_or_pos n with hn | hn
    · subst hn
      funext a
      simp [Matrix.mulVec, Matrix.dotProduct]
    rcases Nat.eq_zero_or_pos p with hp | hp
    · subst hp
      funext a
      exact a.elim0
    have hnne : n ≠ 0 := Nat.pos_iff_ne_zero.mp hn
    set k := min n p with hk
    have hli := tvec_linearIndependent X y k hex
    have hspanle :
        Submodule.span ℝ (Set.range fun c : Fin k => tvec X y c.val) ≤
          colSpace (centerX X) := by
      rw [Submodule.span_le]
      rintro v ⟨c, rfl⟩
      exact tvec_mem X y c.val
    have hfinspan : Module.finrank ℝ
        (Submodule.span ℝ (Set.range fun c : Fin k => tvec X y c.val)) = k := by
      rw [finrank_span_eq_card hli, Fintype.card_fin]
    have hVle : Module.finrank ℝ (colSpace (centerX X)) ≤ p := by
      have hr := LinearMap.finrank_range_le (Matrix.mulVecLin (centerX X))
      rwa [Module.finrank_fin_fun] at hr
    rcases le_or_lt p n with hpn | hnp
    · have hkp : k = p := by rw [hk, min_eq_right hpn]
      have hspan_eq :
          Submodule.span ℝ (Set.range fun c : Fin k => tvec X y c.val) =
            colSpace (centerX X) := by
        apply Submodule.eq_of_le_of_finrank_le hspanle
        rw [hfinspan, hkp]
        exact hVle
      funext a
      simp only [Matrix.mulVec, Matrix.dotProduct, Matrix.transpose_apply]
      have hcol : (fun i => centerX X i a) ∈ colSpace (centerX X) := by
        refine LinearMap.mem_range.mpr ⟨fun b => if b = a then 1 else 0, ?_⟩
        rw [Matrix.mulVecLin_apply]
        funext i
        simp only [Matrix.mulVec, Matrix.dotProduct, mul_ite, mul_one, mul_zero]
        rw [Finset.sum_ite_eq' Finset.univ a fun b => centerX X i b]
        simp
      rw [← hspan_eq] at hcol
      obtain ⟨g, hgev⟩ := (mem_span_range_iff_exists_fun ℝ).mp hcol
      have hdotgoal : dot (fun i => centerX X i a) (rvec X y k) = 0 := by
        rw [← hgev, dot_comm, dot_sum_right]
        refine Finset.sum_eq_zero fun c _ => ?_
        rw [dot_smul_right, dot_comm,
          tvec_dot_rvec_eq_zero X y k c.val c.isLt, mul_zero]
      simpa [dot] using hdotgoal
    · exfalso
      have hkn : k = n := by rw [hk, min_eq_left (le_of_lt hnp)]
      let f : (Fin n → ℝ) →ₗ[ℝ] ℝ :=
        { toFun := fun v => ∑ i, v i
          map_add' := fun u v => by
            simp [Pi.add_apply, Finset.sum_add_distrib]
          map_smul' := fun c v => by
            simp [Pi.smul_apply, smul_eq_mul, Finset.mul_sum] }
      have hVker : colSpace (centerX X) ≤ LinearMap.ker f := by
        rintro v hv
        obtain ⟨u, hu⟩ := LinearMap.mem_range.mp hv
        rw [LinearMap.mem_ker, ← hu, Matrix.mulVecLin_apply]
        show ∑ i, (centerX X).mulVec u i = 0
        simp only [Matrix.mulVec, Matrix.dotProduct]
        rw [Finset.sum_comm]
        refine Finset.sum_eq_zero fun a _ => ?_
        rw [← Finset.sum_mul, sum_centerX_col X hnne a, zero_mul]
      have hrange : LinearMap.range f = ⊤ := by
        rw [LinearMap.range_eq_top]
        intro c
        refine ⟨fun _ => c / n, ?_⟩
        show ∑ _i : Fin n, c / (n : ℝ) = c
        rw [Finset.sum_const, Finset.card_univ, Fintype.card_fin, nsmul_eq_mul]
        field_simp
      have hadd := LinearMap.finrank_range_add_finrank_ker f
      rw [hrange, finrank_top, Module.finrank_self, Module.finrank_fin_fun]
        at hadd
      have hker_rank : Module.finrank ℝ (LinearMap.ker f) = n - 1 := by omega
      have hle2 : Module.finrank ℝ
          (Submodule.span ℝ (Set.range fun c : Fin k => tvec X y c.val)) ≤
            n - 1 := by
        rw [← hker_rank]
        exact Submodule.finrank_mono (le_trans hspanle hVker)
      rw [hfinspan, hkn] at hle2
      omega

/-! ### The full-component model solves the normal equations -/

theorem mulVec_coefVec_eq_sub {n p : ℕ} (X : Matrix (Fin n) (Fin p) ℝ)
    (y : Fin n → ℝ) (k : ℕ) :
    (centerX X).mulVec (coefVec X y k) = centerY y - rvec X y k := by
  rw [mulVec_coefVec, rvec_eq_sub_sum]
  funext i
  simp only [Pi.sub_apply]
  ring

theorem gram_mulVec_coefVec {n p : ℕ} (X : Matrix (Fin n) (Fin p) ℝ)
    (y : Fin n → ℝ) :
    ((centerX X).transpose * centerX X).mulVec (coefVec X y (min n p)) =
      (centerX X).transpose.mulVec (centerY y) := by
  rw [← Matrix.mulVec_mulVec, mulVec_coefVec_eq_sub, Matrix.mulVec_sub,
    terminal_no_covariance, sub_zero]

theorem gram_mulVec_olsCoef {n p : ℕ} (X : Matrix (Fin n) (Fin p) ℝ)
    (y : Fin n → ℝ)
    (hdet : ((centerX X).transpose * centerX X).det ≠ 0) :
    ((centerX X).transpose * centerX X).mulVec (olsCoef X y) =
      (centerX X).transpose.mulVec (centerY y) := by
  unfold olsCoef
  rw [Matrix.mulVec_mulVec,
    Matrix.mul_nonsing_inv _ (isUnit_iff_ne_zero.mpr hdet), Matrix.one_mulVec]

/-! ### Frozen chains contribute nothing to predictions -/

theorem wvec_frozen {n p : ℕ} (X : Matrix (Fin n) (Fin p) ℝ) (y : Fin n → ℝ)
    {j : ℕ} (h : wvec X y j = 0) : ∀ c, j ≤ c → wvec X y c = 0 := by
  intro c hc
  show stepW (chain X y c).1 (chain X y c).2 = 0
  rw [chain_frozen X y h c hc]
  exact h

theorem seqSum_frozen {n p : ℕ} (X : Matrix (Fin n) (Fin p) ℝ) (y : Fin n → ℝ)
    {j : ℕ} (h : wvec X y j = 0) (v : Fin p → ℝ) :
    ∀ m, j ≤ m → seqSum X y v m = seqSum X y v j := by
  intro m hm
  induction m, hm using Nat.le_induction with
  | base => rfl
  | succ m hm ih =>
    show seqSum X y v m + qsc X y m * dot (wvec X y m) (xres X y v m) = _
    rw [qsc_of_wvec_zero X y m (wvec_frozen X y h m hm), zero_mul, add_zero, ih]

theorem tss_nonneg {n : ℕ} (y : Fin n → ℝ) : 0 ≤ tss y :=
  Finset.sum_nonneg fun i _ => sq_nonneg (y i - vecMean y)

/-! ### Centering is idempotent -/

theorem colMean_centerX {n p : ℕ} (X : Matrix (Fin n) (Fin p) ℝ) :
    colMean (centerX X) = 0 := by
  funext a
  rw [colMean]
  rcases eq_or_ne n 0 with hn | hn
  · subst hn
    simp
  · rw [sum_centerX_col X hn a, zero_div]
    rfl

theorem sum_centerY {n : ℕ} (y : Fin n → ℝ) (hn : n ≠ 0) :
    ∑ i, centerY y i = 0 := by
  have hcast : (n : ℝ) ≠ 0 := Nat.cast_ne_zero.mpr hn
  simp only [centerY]
  rw [Finset.sum_sub_distrib, Finset.sum_const, Finset.card_univ,
    Fintype.card_fin, nsmul_eq_mul, vecMean, mul_div_cancel₀ _ hcast, sub_self]

theorem vecMean_centerY {n : ℕ} (y : Fin n → ℝ) : vecMean (centerY y) = 0 := by
  rw [vecMean]
  rcases eq_or_ne n 0 with hn | hn
  · subst hn
    simp
  · rw [sum_centerY y hn, zero_div]

theorem centerX_idem {n p : ℕ} (X : Matrix (Fin n) (Fin p) ℝ) :
    centerX (centerX X) = centerX X := by
  funext i a
  show centerX X i a - colMean (centerX X) a = centerX X i a
  rw [colMean_centerX]
  simp

theorem centerY_idem {n : ℕ} (y : Fin n → ℝ) :
    centerY (centerY y) = centerY y := by
  funext i
  show centerY y i - vecMean (centerY y) = centerY y i
  rw [vecMean_centerY, sub_zero]

theorem chain_center {n p : ℕ} (X : Matrix (Fin n) (Fin p) ℝ) (y : Fin n → ℝ) :
    ∀ j, chain (centerX X) (centerY y) j = chain X y j := by
  intro j
  induction j with
  | zero =>
    show (centerX (centerX X), centerY (centerY y)) = (centerX X, centerY y)
    rw [centerX_idem, centerY_idem]
  | succ j ih =>
    show plsStep (chain (centerX X) (centerY y) j).1
      (chain (centerX X) (centerY y) j).2 = _
    rw [ih]
    rfl

theorem wvec_center {n p : ℕ} (X : Matrix (Fin n) (Fin p) ℝ) (y : Fin n → ℝ)
    (j : ℕ) : wvec (centerX X) (centerY y) j = wvec X y j := by
  show stepW (chain (centerX X) (centerY y) j).1
    (chain (centerX X) (centerY y) j).2 = _
  rw [chain_center]
  rfl

theorem pload_center {n p : ℕ} (X : Matrix (Fin n) (Fin p) ℝ) (y : Fin n → ℝ)
    (j : ℕ) : pload (centerX X) (centerY y) j = pload X y j := by
  show stepP (chain (centerX X) (centerY y) j).1
    (chain (centerX X) (centerY y) j).2 = _
  rw [chain_center]
  rfl

theorem qsc_center {n p : ℕ} (X : Matrix (Fin n) (Fin p) ℝ) (y : Fin n → ℝ)
    (j : ℕ) : qsc (centerX X) (centerY y) j = qsc X y j := by
  show stepQ (chain (centerX X) (centerY y) j).1
    (chain (centerX X) (centerY y) j).2 = _
  rw [chain_center]
  rfl

theorem xres_center {n p : ℕ} (X : Matrix (Fin n) (Fin p) ℝ) (y : Fin n → ℝ)
    (v : Fin p → ℝ) : ∀ j, xres (centerX X) (centerY y) v j = xres X y v j := by
  intro j
  induction j with
  | zero => rfl
  | succ j ih =>
    show xres (centerX X) (centerY y) v j -
        dot (wvec (centerX X) (centerY y) j)
          (xres (centerX X) (centerY y) v j) • pload (centerX X) (centerY y) j = _
    rw [ih, wvec_center, pload_center]
    rfl

theorem seqSum_center {n p : ℕ} (X : Matrix (Fin n) (Fin p) ℝ) (y : Fin n → ℝ)
    (v : Fin p → ℝ) : ∀ k, seqSum (centerX X) (centerY y) v k =
      seqSum X y v k := by
  intro k
  induction k with
  | zero => rfl
  | succ k ih =>
    show seqSum (centerX X) (centerY y) v k + qsc (centerX X) (centerY y) k *
        dot (wvec (centerX X) (centerY y) k)
          (xres (centerX X) (centerY y) v k) = _
    rw [ih, qsc_center, wvec_center, xres_center]
    rfl

theorem coefVec_center {n p : ℕ} (X : Matrix (Fin n) (Fin p) ℝ)
    (y : Fin n → ℝ) (k : ℕ) :
    coefVec (centerX X) (centerY y) k = coefVec X y k := by
  funext j
  exact seqSum_center X y _ k

/-! ### The checked list API -/

theorem colCount_ofFn (m : ℕ) (g : Fin m → List ℝ) (hm : 0 < m) :
    colCount (List.ofFn g) = (g ⟨0, hm⟩).length := by
  cases m with
  | zero => exact absurd hm (lt_irrefl 0)
  | succ m' =>
    rw [List.ofFn_succ]
    rfl

/-! ### The claims -/

/-- C1: for every feature matrix X of full column rank — formalized as
invertibility of the centered Gram matrix, the condition under which the
component basis spans the full column space used by the fit — and every target
y, fitting with k = min(n, p) components recovers exactly the
ordinary-least-squares coefficient vector, entry by entry, and hence produces
predictions equal to the ordinary-least-squares predictions on every input.
In this exact-real model equality is exact, which subsumes the spec's
small-numerical-tolerance phrasing and its entrywise convergence as k reaches
min(n, p). -/
theorem claim1_pls_full_components_matches_ols {n p : ℕ}
    (X : Matrix (Fin n) (Fin p) ℝ) (y : Fin n → ℝ)
    (hdet : ((centerX X).transpose * centerX X).det ≠ 0) :
    (fit X y (min n p)).coef = olsCoef X y ∧
      ∀ x, predict (fit X y (min n p)) x = olsPredict X y x := by
  have hunit : IsUnit ((centerX X).transpose * centerX X).det :=
    isUnit_iff_ne_zero.mpr hdet
  have hcoef : coefVec X y (min n p) = olsCoef X y := by
    have h3 : ((centerX X).transpose * centerX X).mulVec
        (coefVec X y (min n p)) =
        ((centerX X).transpose * centerX X).mulVec (olsCoef X y) := by
      rw [gram_mulVec_coefVec, gram_mulVec_olsCoef X y hdet]
    have h4 := congrArg
      (fun v => (((centerX X).transpose * centerX X)⁻¹).mulVec v) h3
    simpa [Matrix.mulVec_mulVec, Matrix.nonsing_inv_mul _ hunit,
      Matrix.one_mulVec] using h4
  refine ⟨hcoef, fun x => ?_⟩
  show dot (coefVec X y (min n p)) x +
      (vecMean y - dot (coefVec X y (min n p)) (colMean X)) = _
  rw [hcoef]
  rfl

/-- The hypothesis of C1 is satisfiable: on a concrete 2 × 1 data set the
centered Gram determinant is nonzero and the conclusion follows. -/
theorem claim1_witness :
    ((centerX (!![(0:ℝ); 1])).transpose * centerX (!![(0:ℝ); 1])).det ≠ 0 ∧
      ((fit (!![(0:ℝ); 1]) (![(0:ℝ), 1]) (min 2 1)).coef =
          olsCoef (!![(0:ℝ); 1]) (![(0:ℝ), 1]) ∧
        ∀ x, predict (fit (!![(0:ℝ); 1]) (![(0:ℝ), 1]) (min 2 1)) x =
          olsPredict (!![(0:ℝ); 1]) (![(0:ℝ), 1]) x) := by
  have hdet :
      ((centerX (!![(0:ℝ); 1])).transpose * centerX (!![(0:ℝ); 1])).det ≠ 0 := by
    have hd : ((centerX (!![(0:ℝ); 1])).transpose *
        centerX (!![(0:ℝ); 1])).det = 1 / 2 := by
      rw [Matrix.det_fin_one, Matrix.mul_apply]
      simp only [centerX, colMean, Fin.sum_univ_two, Matrix.transpose_apply]
      norm_num [Matrix.cons_val_zero, Matrix.cons_val_one, Matrix.head_cons]
    rw [hd]
    norm_num
  exact ⟨hdet, claim1_pls_full_components_matches_ols _ _ hdet⟩

/-- C2: for fixed X and y and component counts k1 ≤ k2 (the target having
nonzero total variance, so that the score is defined), the R-squared of the
k2-component model is at least that of the k1-component model. -/
theorem claim2_r2_monotone_in_components {n p : ℕ}
    (X : Matrix (Fin n) (Fin p) ℝ) (y : Fin n → ℝ) {k1 k2 : ℕ}
    (htss : tss y ≠ 0) (hk : k1 ≤ k2) :
    ∃ s1 s2, score (fit X y k1) X y = some s1 ∧
      score (fit X y k2) X y = some s2 ∧ s1 ≤ s2 := by
  refine ⟨1 - rss (fit X y k1) X y / tss y, 1 - rss (fit X y k2) X y / tss y,
    ?_, ?_, ?_⟩
  · rw [score, if_neg htss]
  · rw [score, if_neg htss]
  · have htpos : 0 < tss y := lt_of_le_of_ne (tss_nonneg y) (Ne.symm htss)
    have hrss : rss (fit X y k2) X y ≤ rss (fit X y k1) X y := by
      rw [rss_fit, rss_fit]
      exact norm2_rvec_antitone X y hk
    have hdiv : rss (fit X y k2) X y / tss y ≤ rss (fit X y k1) X y / tss y :=
      div_le_div_of_nonneg_right hrss (tss_nonneg y)
    linarith

/-- The hypotheses of C2 are satisfiable on a concrete data set. -/
theorem claim2_witness :
    tss (![(0:ℝ), 1]) ≠ 0 ∧ (1 : ℕ) ≤ 2 ∧
      ∃ s1 s2, score (fit (!![(0:ℝ); 1]) (![(0:ℝ), 1]) 1)
          (!![(0:ℝ); 1]) (![(0:ℝ), 1]) = some s1 ∧
        score (fit (!![(0:ℝ); 1]) (![(0:ℝ), 1]) 2)
          (!![(0:ℝ); 1]) (![(0:ℝ), 1]) = some s2 ∧ s1 ≤ s2 := by
  have htss : tss (![(0:ℝ), 1]) ≠ 0 := by
    have h : tss (![(0:ℝ), 1]) = 1 / 2 := by
      simp only [tss, vecMean, Fin.sum_univ_two]
      norm_num
    rw [h]
    norm_num
  exact ⟨htss, by norm_num,
    claim2_r2_monotone_in_components _ _ htss (by norm_num)⟩

/-- C3: score is the coefficient of determination 1 - rss/tss whenever the
target is not constant, and on a constant target (zero total variance) every
call returns the one documented sentinel none; as a total function it cannot
crash or behave unpredictably. -/
theorem claim3_score_formula_and_sentinel {n p k : ℕ} (m : Model n p k)
    (X : Matrix (Fin n) (Fin p) ℝ) (y : Fin n → ℝ) :
    (score m X y = none ↔ ∀ i j, y i = y j) ∧
      (¬ (∀ i j, y i = y j) →
        score m X y = some (1 - rss m X y / tss y)) := by
  have hiff := tss_eq_zero_iff y
  refine ⟨⟨?_, ?_⟩, ?_⟩
  · intro hnone
    by_contra hconst
    have htss : tss y ≠ 0 := fun h0 => hconst (hiff.mp h0)
    rw [score, if_neg htss] at hnone
    exact Option.some_ne_none _ hnone
  · intro hconst
    rw [score, if_pos (hiff.mpr hconst)]
  · intro hconst
    rw [score, if_neg fun h0 => hconst (hiff.mp h0)]

/-- C3 instantiated: on a constant target the sentinel is returned, and on a
non-constant target the R-squared formula applies. -/
theorem claim3_witness :
    (score (fit (!![(3:ℝ); 3]) (![(5:ℝ), 5]) 1) (!![(3:ℝ); 3]) (![(5:ℝ), 5]) =
        none ↔ ∀ i j, (![(5:ℝ), 5]) i = (![(5:ℝ), 5]) j) ∧
      (¬ (∀ i j, (![(5:ℝ), 5]) i = (![(5:ℝ), 5]) j) →
        score (fit (!![(3:ℝ); 3]) (![(5:ℝ), 5]) 1) (!![(3:ℝ); 3])
            (![(5:ℝ), 5]) =
          some (1 - rss (fit (!![(3:ℝ); 3]) (![(5:ℝ), 5]) 1) (!![(3:ℝ); 3])
            (![(5:ℝ), 5]) / tss (![(5:ℝ), 5]))) :=
  claim3_score_formula_and_sentinel _ _ _

/-- C4: the checked fit fails exactly when the inputs are malformed — the row
count of X differs from the length of y, or k lies outside [1, min(n, p)] —
and the failure is always the InvalidArgument error; on well-formed inputs
(n ≥ 2, p ≥ 1, 1 ≤ k ≤ min(n, p), matching lengths) it returns a fitted
model. -/
theorem claim4_fit_invalid_argument_iff (X : List (List ℝ)) (y : List ℝ)
    (k : ℕ) :
    ((∃ e, fitE X y k = .error e) ↔
      (X.length ≠ y.length ∨ k < 1 ∨ min X.length (colCount X) < k)) ∧
      (∀ e, fitE X y k = .error e → e = .invalidArgument) ∧
      (X.length = y.length → 2 ≤ X.length → 1 ≤ colCount X → 1 ≤ k →
        k ≤ min X.length (colCount X) → ∃ m, fitE X y k = .ok m) := by
  by_cases hcond : X.length ≠ y.length ∨ k < 1 ∨ min X.length (colCount X) < k
  · refine ⟨⟨fun _ => hcond, fun _ => ?_⟩, fun e he => ?_, fun h1 _ _ h4 h5 => ?_⟩
    · exact ⟨.invalidArgument, by rw [fitE, if_pos hcond]⟩
    · rw [fitE, if_pos hcond] at he
      exact (Except.error.inj he).symm
    · rcases hcond with h | h | h
      · exact absurd h1 h
      · omega
      · omega
  · refine ⟨⟨fun he => ?_, fun h => absurd h hcond⟩, fun e he => ?_,
      fun _ _ _ _ _ => ?_⟩
    · obtain ⟨e, he⟩ := he
      rw [fitE, if_neg hcond] at he
      exact absurd he (by simp)
    · rw [fitE, if_neg hcond] at he
      exact absurd he (by simp)
    · exact ⟨_, by rw [fitE, if_neg hcond]⟩

/-- C4 instantiated: a well-formed 2 × 1 input with k = 1 fits without error,
and an out-of-range k = 2 fails. -/
theorem claim4_witness :
    ((2:ℕ) = 2 ∧ (1:ℕ) ≤ 1) ∧
      (∃ m, fitE [[(1:ℝ)], [2]] [(3:ℝ), 4] 1 = .ok m) := by
  refine ⟨⟨rfl, le_refl 1⟩, ?_⟩
  exact (claim4_fit_invalid_argument_iff [[(1:ℝ)], [2]] [(3:ℝ), 4] 1).2.2
    rfl (by norm_num) (by norm_num [colCount]) (le_refl 1)
    (by norm_num [colCount])

/-- C5: if the residual feature matrix or the residual target is exactly zero
at some iteration j < k, fitting with k components still succeeds (fit is a
total function), every component from j on has zero weight, and the
k-component model predicts identically to the j-component model on every
input: the model saturates. -/
theorem claim5_saturation {n p : ℕ} (X : Matrix (Fin n) (Fin p) ℝ)
    (y : Fin n → ℝ) {j k : ℕ} (hjk : j < k)
    (hzero : Amat X y j = 0 ∨ rvec X y j = 0) :
    (∀ c, j ≤ c → wvec X y c = 0) ∧
      ∀ x, predict (fit X y k) x = predict (fit X y j) x := by
  have hwj : wvec X y j = 0 := by
    rcases hzero with h | h
    · rw [wvec_def, h, Matrix.transpose_zero, Matrix.zero_mulVec,
        normalize_zero]
    · rw [wvec_def, h, Matrix.mulVec_zero, normalize_zero]
  refine ⟨wvec_frozen X y hwj, fun x => ?_⟩
  have hcoef : coefVec X y k = coefVec X y j := by
    funext a
    exact seqSum_frozen X y hwj _ k (le_of_lt hjk)
  show dot (coefVec X y k) x + (vecMean y - dot (coefVec X y k) (colMean X)) =
    dot (coefVec X y j) x + (vecMean y - dot (coefVec X y j) (colMean X))
  rw [hcoef]

/-- The hypotheses of C5 are satisfiable: a constant feature column centers to
the zero matrix, so the chain saturates at the very first component. -/
theorem claim5_witness :
    ((0:ℕ) < 1 ∧
      (Amat (!![(3:ℝ); 3]) (![(0:ℝ), 1]) 0 = 0 ∨
        rvec (!![(3:ℝ); 3]) (![(0:ℝ), 1]) 0 = 0)) ∧
      ((∀ c, 0 ≤ c → wvec (!![(3:ℝ); 3]) (![(0:ℝ), 1]) c = 0) ∧
        ∀ x, predict (fit (!![(3:ℝ); 3]) (![(0:ℝ), 1]) 1) x =
          predict (fit (!![(3:ℝ); 3]) (![(0:ℝ), 1]) 0) x) := by
  have hA : Amat (!![(3:ℝ); 3]) (![(0:ℝ), 1]) 0 = 0 := by
    rw [Amat_zero]
    funext i a
    fin_cases i <;>
      norm_num [centerX, colMean, Fin.sum_univ_two, Matrix.cons_val_zero,
        Matrix.cons_val_one, Matrix.head_cons]
  exact ⟨⟨Nat.zero_lt_one, Or.inl hA⟩,
    claim5_saturation _ _ Nat.zero_lt_one (Or.inl hA)⟩

/-- C6: fitting on the centered data and adding the means' contribution back
to the intercept yields predictions identical to fitting the raw data on every
input, and the R-squared of the centered fit on the centered data equals that
of the raw fit on the raw data. -/
theorem claim6_centering_invariance {n p : ℕ} (X : Matrix (Fin n) (Fin p) ℝ)
    (y : Fin n → ℝ) (k : ℕ) :
    (∀ x, predict (fit (centerX X) (centerY y) k) x +
        (vecMean y - dot (fit (centerX X) (centerY y) k).coef (colMean X)) =
      predict (fit X y k) x) ∧
      score (fit (centerX X) (centerY y) k) (centerX X) (centerY y) =
        score (fit X y k) X y := by
  have hcoef : coefVec (centerX X) (centerY y) k = coefVec X y k :=
    coefVec_center X y k
  have hicept : vecMean (centerY y) -
      dot (coefVec (centerX X) (centerY y) k) (colMean (centerX X)) = 0 := by
    rw [vecMean_centerY, colMean_centerX, dot_zero_right, sub_zero]
  have hpred : ∀ x, predict (fit (centerX X) (centerY y) k) x +
      (vecMean y - dot (fit (centerX X) (centerY y) k).coef (colMean X)) =
      predict (fit X y k) x := by
    intro x
    show dot (coefVec (centerX X) (centerY y) k) x +
        (vecMean (centerY y) -
          dot (coefVec (centerX X) (centerY y) k) (colMean (centerX X))) +
        (vecMean y - dot (coefVec (centerX X) (centerY y) k) (colMean X)) =
      dot (coefVec X y k) x + (vecMean y - dot (coefVec X y k) (colMean X))
    rw [hicept, hcoef]
    ring
  refine ⟨hpred, ?_⟩
  have hrss : rss (fit (centerX X) (centerY y) k) (centerX X) (centerY y) =
      rss (fit X y k) X y := by
    unfold rss
    refine Finset.sum_congr rfl fun i _ => ?_
    have hrow : (fun a => centerX X i a) = (fun a => X i a) - colMean X := by
      funext a
      simp [centerX]
    have hres : centerY y i - predict (fit (centerX X) (centerY y) k)
        (fun a => centerX X i a) =
        y i - predict (fit X y k) (fun a => X i a) := by
      show centerY y i - (dot (coefVec (centerX X) (centerY y) k)
          (fun a => centerX X i a) +
          (vecMean (centerY y) -
            dot (coefVec (centerX X) (centerY y) k) (colMean (centerX X)))) =
        y i - (dot (coefVec X y k) (fun a => X i a) +
          (vecMean y - dot (coefVec X y k) (colMean X)))
      rw [hicept, hcoef, centerY, hrow, dot_sub_right]
      ring
    rw [hres]
  have htss : tss (centerY y) = tss y := by
    unfold tss
    refine Finset.sum_congr rfl fun i _ => ?_
    rw [vecMean_centerY, centerY, sub_zero]
  rw [score, score, hrss, htss]

/-- C7: fit, predict and score are deterministic pure functions: runs on equal
inputs return equal outputs, with no hidden state (inherent in this
effect-free model, in which each operation reads nothing but its arguments). -/
theorem claim7_determinism {n p k : ℕ} (X1 X2 : Matrix (Fin n) (Fin p) ℝ)
    (y1 y2 : Fin n → ℝ) (m1 m2 : Model n p k) (x1 x2 : Fin p → ℝ)
    (hX : X1 = X2) (hy : y1 = y2) (hm : m1 = m2) (hx : x1 = x2) :
    fit X1 y1 k = fit X2 y2 k ∧ predict m1 x1 = predict m2 x2 ∧
      score m1 X1 y1 = score m2 X2 y2 := by
  subst hX
  subst hy
  subst hm
  subst hx
  exact ⟨rfl, rfl, rfl⟩

/-- C7 instantiated at concrete equal inputs. -/
theorem claim7_witness :
    fit (!![(0:ℝ); 1]) (![(0:ℝ), 1]) 1 = fit (!![(0:ℝ); 1]) (![(0:ℝ), 1]) 1 ∧
      predict (fit (!![(0:ℝ); 1]) (![(0:ℝ), 1]) 1) (![(2:ℝ)]) =
        predict (fit (!![(0:ℝ); 1]) (![(0:ℝ), 1]) 1) (![(2:ℝ)]) ∧
      score (fit (!![(0:ℝ); 1]) (![(0:ℝ), 1]) 1) (!![(0:ℝ); 1])
          (![(0:ℝ), 1]) =
        score (fit (!![(0:ℝ); 1]) (![(0:ℝ), 1]) 1) (!![(0:ℝ); 1])
          (![(0:ℝ), 1]) :=
  claim7_determinism _ _ _ _ _ _ _ _ rfl rfl rfl rfl

/-- C8: the notebook never seeds the generator before drawing X and y, so the
generated data and the printed R-squared depend on the random stream: there
are streams producing different X, different y, and different printed scores,
hence the recorded values are not reproducible across runs. -/
theorem claim8_unseeded_generator_not_reproducible :
    ∃ s1 s2 : ℕ → ℝ, genX s1 ≠ genX s2 ∧ genY s1 ≠ genY s2 ∧
      notebookR2 s1 ≠ notebookR2 s2 := by
  refine ⟨fun m => if m = 0 then 1 else 0, fun _ => 0, ?_, ?_, ?_⟩
  · intro h
    have h00 := congrFun (congrFun h 0) 0
    norm_num [genX] at h00
  · intro h
    have h0 := congrFun h 0
    norm_num [genY, genX] at h0
  · have hconst : ∀ i j, genY (fun _ => (0:ℝ)) i = genY (fun _ => (0:ℝ)) j := by
      intro i j
      simp [genY, genX]
    have h2 : notebookR2 (fun _ => (0:ℝ)) = none := by
      rw [notebookR2, score, if_pos ((tss_eq_zero_iff _).mpr hconst)]
    have hnc : ¬ ∀ i j, genY (fun m => if m = 0 then (1:ℝ) else 0) i =
        genY (fun m => if m = 0 then (1:ℝ) else 0) j := by
      intro hall
      have h01 := hall 0 1
      norm_num [genY, genX] at h01
    have h1 : notebookR2 (fun m => if m = 0 then (1:ℝ) else 0) ≠ none := by
      rw [notebookR2, score, if_neg fun h0 => hnc ((tss_eq_zero_iff _).mp h0)]
      exact Option.some_ne_none _
    rw [h2]
    exact h1

/-- C9: executing the sweep cell rebinds the global n from 1000 to the final
loop index 10, while p, X and y are left unchanged; a later cell reading n as
the observation count would see 10. -/
theorem claim9_sweep_rebinds_n (e : Env) (hn : e.n = 1000) :
    (sweepCell e).1.n = 10 ∧ (sweepCell e).1.n ≠ e.n ∧
      (sweepCell e).1.p = e.p ∧ (sweepCell e).1.X = e.X ∧
      (sweepCell e).1.y = e.y := by
  have hr : List.range' 1 10 = [1, 2, 3, 4, 5, 6, 7, 8, 9, 10] := rfl
  have hfold : (sweepCell e).1 = { e with n := 10 } := by
    rw [sweepCell, hr]
    rfl
  rw [hfold, hn]
  exact ⟨rfl, by norm_num, rfl, rfl, rfl⟩

/-- C9 instantiated at a concrete environment with n = 1000. -/
theorem claim9_witness :
    (sweepCell ⟨1000, 10, [], []⟩).1.n = 10 ∧
      (sweepCell ⟨1000, 10, [], []⟩).1.n ≠ (Env.mk 1000 10 [] []).n ∧
      (sweepCell ⟨1000, 10, [], []⟩).1.p = (Env.mk 1000 10 [] []).p ∧
      (sweepCell ⟨1000, 10, [], []⟩).1.X = (Env.mk 1000 10 [] []).X ∧
      (sweepCell ⟨1000, 10, [], []⟩).1.y = (Env.mk 1000 10 [] []).y :=
  claim9_sweep_rebinds_n _ rfl

/-- C10: every component count the notebook passes to the PLS constructor lies
in [1, min(n, p)] = [1, 10] for its 1000 × 10 data, so the invalid-argument
branch of fit is unreachable throughout the notebook. -/
theorem claim10_component_counts_valid (s : ℕ → ℝ) (k : ℕ)
    (hk : k ∈ notebookComponentCounts) :
    1 ≤ k ∧ k ≤ min (genXList s).length (colCount (genXList s)) ∧
      ∃ m, fitE (genXList s) (genYList s) k = .ok m := by
  have hcounts : notebookComponentCounts = [3, 1, 2, 3, 4, 5, 6, 7, 8, 9, 10] :=
    rfl
  rw [hcounts] at hk
  simp only [List.mem_cons, List.not_mem_nil, or_false] at hk
  have hk10 : 1 ≤ k ∧ k ≤ 10 := by
    rcases hk with rfl | rfl | rfl | rfl | rfl | rfl | rfl | rfl | rfl | rfl |
      rfl <;> omega
  have hlen : (genXList s).length = 1000 := by
    rw [genXList, List.length_ofFn]
  have hylen : (genYList s).length = 1000 := by
    rw [genYList, List.length_ofFn]
  have hcol : colCount (genXList s) = 10 := by
    rw [genXList, colCount_ofFn nObs _ (by norm_num), List.length_ofFn]
  have hmin : min (genXList s).length (colCount (genXList s)) = 10 := by
    rw [hlen, hcol]
    omega
  refine ⟨hk10.1, ?_, ?_⟩
  · rw [hmin]
    exact hk10.2
  · have hcond : ¬((genXList s).length ≠ (genYList s).length ∨ k < 1 ∨
        min (genXList s).length (colCount (genXList s)) < k) := by
      rw [hmin, hlen, hylen]
      intro hor
      rcases hor with h | h | h
      · exact h rfl
      · omega
      · omega
    exact ⟨_, by rw [fitE, if_neg hcond]⟩

/-- C10 instantiated: k = 3 is one of the notebook's component counts and the
corresponding fit succeeds. -/
theorem claim10_witness :
    3 ∈ notebookComponentCounts ∧
      (1 ≤ 3 ∧ 3 ≤ min (genXList fun _ => (0:ℝ)).length
          (colCount (genXList fun _ => (0:ℝ))) ∧
        ∃ m, fitE (genXList fun _ => (0:ℝ)) (genYList fun _ => (0:ℝ)) 3 =
          .ok m) :=
  ⟨by decide, claim10_component_counts_valid _ 3 (by decide)⟩

end PLSSpec
